import Mathlib

/-!
# Verification of the tfidf-go TF-IDF / cosine-similarity pipeline

Shallow embedding of the Go repository `rioloc/tfidf-go`:

* `token` package (scanning tokenizer variant and shared `vocabulary`),
* the `tfidf` package (`Tf`, `Idf`, `TfIdf`, `l1Normalize`, `l2Normalize`,
  `doNormalize`),
* the `similarity` package (`cosineSimilarity`, `CosineSimilarity.Do`).

Go `float64` values are modelled as real numbers (claims about scores are
stated in exact real arithmetic); Go slices become Lean lists; Go maps used
as multisets / sets become counting functions and membership predicates with
the same extensional behaviour.
-/

namespace TfidfGo

/-! ## Tokenizer (`token` package, scanning variant)

The scanning tokenizer iterates `for i, r := range doc`, where `i` is the
**byte** offset of the rune `r`, keeps `start`, the byte offset where the
current letter-run began, and emits `doc[start:i]` whenever the run is
interrupted (or ends at end of string) and `i - start > 1`, i.e. whenever
the run is **more than one byte** long.  We model the document as its list
of characters (runes) and carry the current run explicitly; `i - start`
is exactly the UTF-8 byte length of the run. -/

/-- UTF-8 byte length of a run of characters (`i - start` in the Go code). -/
def byteLen (cs : List Char) : Nat :=
  (cs.map Char.utf8Size).sum

/-- Models Go's `unicode.IsLetter` on the code points used in this
development: it agrees with `unicode.IsLetter` on ASCII (letters are
`A`–`Z`, `a`–`z`) and on the Latin-1 letter `é` (U+00E9, category Ll, for
which `unicode.IsLetter` returns `true`). -/
def unicodeIsLetter (c : Char) : Bool :=
  c.isAlpha || c == 'é'

/-- `doNormalize` of the tokenizer: applies the normalization function to a
token when one is configured. -/
def Tokenizer.doNormalize (normalizeFunc : Option (String → String)) (token : String) : String :=
  match normalizeFunc with
  | some f => f token
  | none => token

/-- One step-by-step pass of the Go scanner `tokenize` (file `token`,
scanning variant).  `run` is the current letter-run `doc[start:i]`
(empty run ⟺ `start == -1`).  A run is emitted iff its byte length
exceeds 1 (`i - start > 1` in the Go code). -/
def tokenizeAux (isLetter : Char → Bool) (normalizeFunc : Option (String → String)) :
    List Char → List Char → List String
  | [], run =>
      if 1 < byteLen run then [Tokenizer.doNormalize normalizeFunc (String.mk run)] else []
  | c :: rest, run =>
      if isLetter c then
        tokenizeAux isLetter normalizeFunc rest (run ++ [c])
      else
        (if 1 < byteLen run then [Tokenizer.doNormalize normalizeFunc (String.mk run)] else [])
          ++ tokenizeAux isLetter normalizeFunc rest []

/-- The Go scanner `(*Tokenizer).tokenize`: extracts the byte-length-`> 1`
letter runs of `doc`, each passed through `doNormalize`. -/
def Tokenizer.tokenize (isLetter : Char → Bool) (normalizeFunc : Option (String → String))
    (doc : String) : List String :=
  tokenizeAux isLetter normalizeFunc doc.toList []

/-- First-occurrence deduplication: the loop of the Go `vocabulary` function,
which appends a token to `terms` the first time it is seen (`termsMap` is the
seen-set; `seen` plays its role here). -/
def uniqueTerms : List String → List String → List String
  | [], _ => []
  | t :: rest, seen =>
      if seen.contains t then uniqueTerms rest seen
      else t :: uniqueTerms rest (t :: seen)

/-- Go's `<=` on strings, modelled at the code-point level: lexicographic
comparison of the character (rune) sequences.  Go compares strings byte by
byte, and UTF-8 encoding preserves code-point order, so byte-lexicographic
and code-point-lexicographic order coincide. -/
def leChars : List Char → List Char → Bool
  | [], _ => true
  | _ :: _, [] => false
  | a :: as, b :: bs => if a < b then true else if b < a then false else leChars as bs

/-- Go's `s₁ <= s₂` on strings (the order used by `slices.Sort`). -/
def strLe (s₁ s₂ : String) : Bool :=
  leChars s₁.toList s₂.toList

/-- The Go `vocabulary` function: collect the distinct tokens across all
documents in discovery order, then sort ascending by Go string order
(`slices.Sort`).  `insertionSort` is extensionally the unique sort, so it
models the sorting step faithfully. -/
def vocabulary (tokens : List (List String)) : List String :=
  List.insertionSort (fun a b => strLe a b = true) (uniqueTerms tokens.flatten [])

/-- The Go `(*Tokenizer).Tokenize`: tokenizes each document (the scanning
`tokenize` already applies `doNormalize` to each emitted token), then —
when a normalization function is configured — applies it once more to every
token (lines 44–48 of the scanning variant), and pairs the vocabulary with
the per-document token sequences. -/
def Tokenize (isLetter : Char → Bool) (normalizeFunc : Option (String → String))
    (documents : List String) : List String × List (List String) :=
  let tokens := documents.map fun doc =>
    let tkns := Tokenizer.tokenize isLetter normalizeFunc doc
    match normalizeFunc with
    | some f => tkns.map f
    | none => tkns
  (vocabulary tokens, tokens)

/-! ## Term frequency (`tfidf.Tf`)

Real-number arithmetic is not executable in Lean, so the `ℝ`-valued part of
the embedding lives in a `noncomputable section`; everything over strings
and naturals (tokenizer, vocabulary, counting) stays computable. -/

noncomputable section

/-- The per-document frequency map `termsMap` (`termsMap[term]++` for every
`term` of the document), modelled as a counting function `String → Nat`. -/
def termsMap (row : List String) : String → Nat :=
  row.foldl (fun m term => fun s => if s = term then m s + 1 else m s) (fun _ => 0)

/-- The Go `Tf`: one row per document, one column per vocabulary term; the
entry is the looked-up count when the term is present in the document's
frequency map (`found`), and the zero the row was initialized with
otherwise. -/
def Tf (vocabulary : List String) (tokens : List (List String)) : List (List ℝ) :=
  tokens.map fun row =>
    vocabulary.map fun token =>
      if 0 < termsMap row token then (termsMap row token : ℝ) else 0

/-! ## Inverse document frequency (`tfidf.Idf`) -/

/-- The Go `Idf`.  `docCount` is the number of documents whose token set
contains the term (`docMaps` membership); the three formulas follow the
source exactly. -/
def Idf (vocabulary : List String) (tokens : List (List String)) (smoothing : Bool) :
    List ℝ :=
  let total := tokens.length
  if total = 0 then
    vocabulary.map fun _ => 1.0
  else
    vocabulary.map fun term =>
      let docCount := tokens.countP fun doc => doc.contains term
      if smoothing then
        Real.log (((total : ℝ) + 1) / ((docCount : ℝ) + 1)) + 1
      else if docCount = 0 then
        Real.log (total : ℝ) + 1
      else
        Real.log ((total : ℝ) / (docCount : ℝ)) + 1

/-! ## Vectorizer (`tfidf.TfIdfVectorizer`)

`NLevel` is a Go `int` (constants `NoNorm = 0`, `L1Norm = 1`, `L2Norm = 2`);
it is modelled as `ℤ` so that the `default` branch of `doNormalize` —
reachable only through an out-of-range value — is representable.  A failing
Go call returns `(nil, err)`: the error constructors carry no matrix.  An
out-of-bounds slice access panics; the `oob` outcome models that panic. -/

/-- The three error values of `TfIdf` (`errors.New` strings in Go):
`emptyInput` = "empty TF matrix", `shapeMismatch` = "TF matrix and IDF
vector dimensions don't match", `invalidConfig` = "invalid normalization
level". -/
inductive TfIdfError : Type
  | emptyInput
  | shapeMismatch
  | invalidConfig
deriving DecidableEq, Repr

/-- Outcome of a Go call that can return a matrix, return an error, or
panic on an out-of-bounds index. -/
inductive TfIdfResult : Type
  | ok (m : List (List ℝ)) : TfIdfResult
  | err (e : TfIdfError) : TfIdfResult
  | oob : TfIdfResult

/-- `NoNorm NLevel = iota` -/
def NoNorm : ℤ := 0

/-- `L1Norm` -/
def L1Norm : ℤ := 1

/-- `L2Norm` -/
def L2Norm : ℤ := 2

/-- The Go `l1Normalize`: divide by the sum of absolute values, unless that
sum is `0`, in which case the vector is returned unchanged. -/
def l1Normalize (vec : List ℝ) : List ℝ :=
  let norm := (vec.map fun val => |val|).sum
  if norm = 0 then vec else vec.map fun x => x / norm

/-- The Go `l2Normalize`: divide by the Euclidean norm (`sqrt` of the sum of
squares), unless that norm is `0`, in which case the vector is returned
unchanged.  As in the source, the zero test is performed **after** the
square root. -/
def l2Normalize (vec : List ℝ) : List ℝ :=
  let norm := Real.sqrt (vec.map fun val => val * val).sum
  if norm = 0 then vec else vec.map fun x => x / norm

/-- The Go `(*TfIdfVectorizer).doNormalize`: switch on the normalization
level in source order (`L1Norm`, `L2Norm`, `NoNorm`, `default`). -/
def doNormalize (normLevel : ℤ) (vec : List ℝ) : Except TfIdfError (List ℝ) :=
  if normLevel = L1Norm then .ok (l1Normalize vec)
  else if normLevel = L2Norm then .ok (l2Normalize vec)
  else if normLevel = NoNorm then .ok vec
  else .error .invalidConfig

/-- The inner loop body of `TfIdf` for one document row: for each
`j < width` (where `width = len(tfVec[0])`) read `tfVec[i][j]` and
`idfVec[j]` and multiply.  `none` models the Go panic that occurs when an
index is out of range of either slice. -/
def rowProducts (width : Nat) (idfVec row : List ℝ) : Option (List ℝ) :=
  if width ≤ row.length ∧ width ≤ idfVec.length then
    some (List.zipWith (fun a b => a * b) (row.take width) (idfVec.take width))
  else
    none

/-- The row loop of `TfIdf`: multiply each row elementwise with the IDF
vector (panicking on an out-of-range index), normalize it, and abort with
the error on a normalization failure, as the Go loop does. -/
def TfIdfLoop (normLevel : ℤ) (width : Nat) (idfVec : List ℝ) :
    List (List ℝ) → TfIdfResult
  | [] => .ok []
  | row :: rest =>
      match rowProducts width idfVec row with
      | none => .oob
      | some prods =>
          match doNormalize normLevel prods with
          | .error e => .err e
          | .ok nrow =>
              match TfIdfLoop normLevel width idfVec rest with
              | .ok m => .ok (nrow :: m)
              | r => r

/-- The Go `(*TfIdfVectorizer).TfIdf`: reject an empty TF matrix, then
reject a first row whose length differs from the IDF vector's, then run the
row loop with row width `len(tfVec[0])`. -/
def TfIdf (normLevel : ℤ) (tfVec : List (List ℝ)) (idfVec : List ℝ) : TfIdfResult :=
  if tfVec.length = 0 then .err .emptyInput
  else if (tfVec.headD []).length ≠ idfVec.length then .err .shapeMismatch
  else TfIdfLoop normLevel (tfVec.headD []).length idfVec tfVec

/-! ## Cosine similarity (`similarity` package) -/

/-- The Go `cosineSimilarity`: the loop runs `for i := range vec1`, so the
dot product and both square sums range over the indices of `vec1` (the Go
code panics when `vec2` is shorter than `vec1`; the claims only apply it to
equal-length vectors, where this model coincides with the source). -/
def cosineSimilarity (vec1 vec2 : List ℝ) : ℝ :=
  let dot := (List.zipWith (fun a b => a * b) vec1 (vec2.take vec1.length)).sum
  let normA := (vec1.map fun x => x * x).sum
  let normB := ((vec2.take vec1.length).map fun x => x * x).sum
  if normA = 0 ∨ normB = 0 then 0
  else dot / (Real.sqrt normA * Real.sqrt normB)

/-- Outcome of `(*CosineSimilarity).Do`. -/
inductive DoResult : Type
  | ok (scores : List ℝ) : DoResult
  | err (e : TfIdfError) : DoResult
  | oob : DoResult

/-- The Go `(*CosineSimilarity).Do`, instantiated (as in the claims and the
repository's own constructions) with the scanning tokenizer and the
`TfIdfVectorizer`: tokenize the corpus, build TF/IDF (smoothing on), build
the document TF-IDF matrix, tokenize the query against the corpus
vocabulary, build its TF-IDF vector, and score each document vector against
`tfIdf[0]` in document order.  Errors from the vectorizer abort and are
propagated untouched (the scanning tokenizer cannot fail). -/
def Do (isLetter : Char → Bool) (normalizeFunc : Option (String → String))
    (normLevel : ℤ) (input : String) (documents : List String) : DoResult :=
  let voc := (Tokenize isLetter normalizeFunc documents).1
  let tokens := (Tokenize isLetter normalizeFunc documents).2
  let tfVec := Tf voc tokens
  let idfVec := Idf voc tokens true
  match TfIdf normLevel tfVec idfVec with
  | .err e => .err e
  | .oob => .oob
  | .ok tfIdfVec =>
      let queryTokens := (Tokenize isLetter normalizeFunc [input]).2
      let tf := Tf voc queryTokens
      match TfIdf normLevel tf idfVec with
      | .err e => .err e
      | .oob => .oob
      | .ok tfIdf =>
          .ok (tfIdfVec.map fun vec => cosineSimilarity (tfIdf.headD []) vec)

/-- Models Go's `strings.ToLower` (used by the repository's examples and
tests as the tokenizer's normalization function): each rune is lower-cased
individually; `Char.toLower` agrees with Go's `unicode.ToLower` on the
ASCII inputs used in this development. -/
def toLowerGo (s : String) : String :=
  String.mk (s.toList.map Char.toLower)

end

/-! ## Helper lemmas -/

/-- The frequency map built by `Tf` counts occurrences. -/
theorem foldl_termsMap_eq_count (row : List String) (m : String → Nat) (s : String) :
    (row.foldl (fun m term => fun x => if x = term then m x + 1 else m x) m) s
      = m s + row.count s := by
  induction row generalizing m with
  | nil => simp
  | cons t rest ih =>
      by_cases h : s = t
      · subst h
        simp [List.foldl_cons, ih, List.count_cons]
        omega
      · simp [List.foldl_cons, ih, List.count_cons, h]

theorem termsMap_eq_count (row : List String) (s : String) :
    termsMap row s = row.count s := by
  simpa using foldl_termsMap_eq_count row (fun _ => 0) s

/-- `Tf` entries are exactly occurrence counts. -/
theorem Tf_eq_counts (vocab : List String) (tokens : List (List String)) :
    Tf vocab tokens
      = tokens.map fun row => vocab.map fun t => ((row.count t : ℕ) : ℝ) := by
  unfold Tf
  refine List.map_congr_left fun row _ => List.map_congr_left fun t _ => ?_
  rw [termsMap_eq_count]
  by_cases h : 0 < row.count t
  · simp [h]
  · simp only [not_lt, Nat.le_zero] at h
    simp [h]

/-- `getD` through a `map`, inside the list's range. -/
theorem getD_map_of_lt {α β : Type _} (f : α → β) (l : List α) (i : Nat)
    (h : i < l.length) (d : α) (d' : β) :
    (l.map f).getD i d' = f (l.getD i d) := by
  rw [List.getD_eq_getElem?_getD, List.getD_eq_getElem?_getD, List.getElem?_map,
    List.getElem?_eq_getElem h]
  simp

/-! ## Claim theorems -/

/-- C3: `Tf(vocabulary, tokens)` has one row per token sequence, each row of
length `|vocabulary|`, and entry `[i][j]` equals the number of occurrences
of `vocabulary[j]` in `tokens[i]`; absent terms give exactly `0` (the count
is then `0`) and no error value exists. -/
theorem Tf_spec (vocab : List String) (tokens : List (List String)) :
    (Tf vocab tokens).length = tokens.length ∧
    ∀ i, i < tokens.length →
      ((Tf vocab tokens).getD i []).length = vocab.length ∧
      ∀ j, j < vocab.length →
        ((Tf vocab tokens).getD i []).getD j 0
          = (((tokens.getD i []).count (vocab.getD j "") : ℕ) : ℝ) := by
  rw [Tf_eq_counts]
  refine ⟨by simp, fun i hi => ?_⟩
  rw [getD_map_of_lt _ tokens i hi []]
  exact ⟨by simp, fun j hj => by rw [getD_map_of_lt _ vocab j hj ""]⟩

/-- Witness for C3 at a concrete input. -/
theorem Tf_spec_witness :
    (0 < 1) ∧ (0 < 2) ∧
      ((Tf ["the", "cat"] [["the", "the", "cat"]]).getD 0 []).getD 0 0
        = ((([["the", "the", "cat"]].getD 0 []).count (["the", "cat"].getD 0 "") : ℕ) : ℝ) :=
  ⟨by decide, by decide,
    ((Tf_spec ["the", "cat"] [["the", "the", "cat"]]).2 0 (by decide)).2 0 (by decide)⟩

/-- The document frequency computed by `Idf` (membership count via the
per-document maps) equals the number of documents containing the term. -/
theorem countP_contains_eq_filter_mem (tokens : List (List String)) (t : String) :
    (tokens.countP fun doc => doc.contains t)
      = (tokens.filter fun doc => decide (t ∈ doc)).length := by
  rw [← List.countP_eq_length_filter]
  refine List.countP_congr fun doc _ => ?_
  simp [List.contains]

/-- C4: `Idf` returns one weight per vocabulary term, following the four
formulas of the source: all `1.0` when there are no documents;
`ln((N+1)/(df+1)) + 1` with smoothing; `ln(N) + 1` when unsmoothed and the
term occurs in no document; `ln(N/df) + 1` otherwise — where `df` counts the
documents containing the term at least once (membership, not occurrence
count). -/
theorem Idf_spec (vocab : List String) (tokens : List (List String)) (smoothing : Bool) :
    (Idf vocab tokens smoothing).length = vocab.length ∧
    ∀ j, j < vocab.length →
      (Idf vocab tokens smoothing).getD j 0
        = (let t := vocab.getD j ""
           let N := tokens.length
           let dft := (tokens.filter fun doc => decide (t ∈ doc)).length
           if N = 0 then 1
           else if smoothing then Real.log (((N : ℝ) + 1) / ((dft : ℝ) + 1)) + 1
           else if dft = 0 then Real.log (N : ℝ) + 1
           else Real.log ((N : ℝ) / (dft : ℝ)) + 1) := by
  unfold Idf
  by_cases h : tokens.length = 0
  · simp only [h, if_pos rfl, if_true]
    exact ⟨by simp, fun j hj => by rw [getD_map_of_lt _ vocab j hj ""]; norm_num⟩
  · simp only [if_neg h]
    refine ⟨by simp, fun j hj => ?_⟩
    rw [getD_map_of_lt _ vocab j hj ""]
    simp only [countP_contains_eq_filter_mem, if_neg h]

/-- Witness for C4 at a concrete input. -/
theorem Idf_spec_witness :
    (0 < 2) ∧
      (Idf ["the", "rare"] [["the"], ["the", "dog"]] true).getD 1 0
        = (let t := ["the", "rare"].getD 1 ""
           let N := [["the"], ["the", "dog"]].length
           let dft := ([["the"], ["the", "dog"]].filter fun doc => decide (t ∈ doc)).length
           if N = 0 then 1
           else if true then Real.log (((N : ℝ) + 1) / ((dft : ℝ) + 1)) + 1
           else if dft = 0 then Real.log (N : ℝ) + 1
           else Real.log ((N : ℝ) / (dft : ℝ)) + 1) :=
  ⟨by decide, (Idf_spec ["the", "rare"] [["the"], ["the", "dog"]] true).2 1 (by decide)⟩

/-- C9: every `Idf` weight is strictly positive, and a term occurring in
every one of `N ≥ 1` documents gets exactly `ln(1) + 1 = 1` without
smoothing. -/
theorem Idf_pos (vocab : List String) (tokens : List (List String)) (smoothing : Bool) :
    (∀ x ∈ Idf vocab tokens smoothing, 0 < x) ∧
    (∀ j, j < vocab.length → smoothing = false → tokens.length ≠ 0 →
      (tokens.countP fun doc => doc.contains (vocab.getD j "")) = tokens.length →
      (Idf vocab tokens smoothing).getD j 0 = 1) := by
  constructor
  · intro x hx
    unfold Idf at hx
    by_cases h : tokens.length = 0
    · rw [if_pos h, List.mem_map] at hx
      obtain ⟨a, _, rfl⟩ := hx
      norm_num
    · rw [if_neg h, List.mem_map] at hx
      obtain ⟨term, _, rfl⟩ := hx
      have hN : 1 ≤ tokens.length := Nat.pos_of_ne_zero h
      have hNR : (1 : ℝ) ≤ (tokens.length : ℝ) := by exact_mod_cast hN
      have hdc : (tokens.countP fun doc => doc.contains term) ≤ tokens.length :=
        List.countP_le_length _
      set dc := tokens.countP fun doc => doc.contains term with hdcdef
      have hdcR : (dc : ℝ) ≤ (tokens.length : ℝ) := by exact_mod_cast hdc
      by_cases hs : smoothing
      · rw [if_pos hs]
        have h1 : (1 : ℝ) ≤ ((tokens.length : ℝ) + 1) / ((dc : ℝ) + 1) := by
          rw [le_div_iff₀ (by positivity)]
          linarith
        have := Real.log_nonneg h1
        linarith
      · rw [if_neg hs]
        by_cases hz : dc = 0
        · rw [if_pos hz]
          have := Real.log_nonneg hNR
          linarith
        · rw [if_neg hz]
          have hdcpos : (0 : ℝ) < (dc : ℝ) := by
            exact_mod_cast Nat.pos_of_ne_zero hz
          have h1 : (1 : ℝ) ≤ (tokens.length : ℝ) / (dc : ℝ) := by
            rw [le_div_iff₀ hdcpos]
            linarith
          have := Real.log_nonneg h1
          linarith
  · intro j hj hs hN hdf
    unfold Idf
    rw [if_neg hN, getD_map_of_lt _ vocab j hj "", hdf, hs]
    rw [if_neg (by simp : ¬(false = true)), if_neg hN]
    have hNR : ((tokens.length : ℕ) : ℝ) ≠ 0 := Nat.cast_ne_zero.mpr hN
    rw [div_self hNR, Real.log_one]
    norm_num

/-- Witness for C9 at a concrete input. -/
theorem Idf_pos_witness :
    (0 < 1) ∧ (Idf ["a"] [["a"]] false).getD 0 0 = 1 :=
  ⟨by decide, (Idf_pos ["a"] [["a"]] false).2 0 (by decide) rfl (by decide) (by decide)⟩

/-- C8: under L1 and under L2 normalization, a row whose norm is exactly
zero — in particular an all-zero row — is returned unchanged, so the `0/0`
division is never performed and row normalization never produces an
undefined value. -/
theorem normalize_zero_row (vec : List ℝ) :
    ((vec.map fun val => |val|).sum = 0 → l1Normalize vec = vec) ∧
    (Real.sqrt (vec.map fun val => val * val).sum = 0 → l2Normalize vec = vec) ∧
    ((∀ x ∈ vec, x = 0) → l1Normalize vec = vec ∧ l2Normalize vec = vec) := by
  refine ⟨fun h => ?_, fun h => ?_, fun h => ⟨?_, ?_⟩⟩
  · unfold l1Normalize
    rw [if_pos h]
  · unfold l2Normalize
    rw [if_pos h]
  · unfold l1Normalize
    rw [if_pos (List.sum_eq_zero fun x hx => ?_)]
    obtain ⟨v, hv, rfl⟩ := List.mem_map.mp hx
    rw [h v hv, abs_zero]
  · unfold l2Normalize
    rw [if_pos ?_]
    rw [List.sum_eq_zero fun x hx => ?_, Real.sqrt_zero]
    obtain ⟨v, hv, rfl⟩ := List.mem_map.mp hx
    rw [h v hv, mul_zero]

/-- Witness for C8 at a concrete input. -/
theorem normalize_zero_row_witness :
    l1Normalize [0, 0] = [0, 0] ∧ l2Normalize [0, 0] = [0, 0] :=
  (normalize_zero_row [0, 0]).2.2 fun x hx => by
    rcases List.mem_cons.mp hx with h | h
    · exact h
    · simpa using h

/-- C5: self-similarity of a nonzero vector is exactly `1`; the similarity
is exactly `0` when the vectors share no nonzero dimension or when either
vector is the zero vector (equal lengths, as in every use in the source). -/
theorem cosineSimilarity_spec :
    (∀ a : List ℝ, (∃ x ∈ a, x ≠ 0) → cosineSimilarity a a = 1) ∧
    (∀ a b : List ℝ, a.length = b.length →
      (∀ i : ℕ, a.getD i 0 = 0 ∨ b.getD i 0 = 0) → cosineSimilarity a b = 0) ∧
    (∀ a b : List ℝ, a.length = b.length →
      ((∀ x ∈ a, x = 0) ∨ (∀ x ∈ b, x = 0)) → cosineSimilarity a b = 0) := by
  have sq_mem : ∀ (a : List ℝ) (x : ℝ), x ∈ a → x * x ∈ a.map fun v => v * v :=
    fun a x hx => List.mem_map.mpr ⟨x, hx, rfl⟩
  have sum_sq_nonneg : ∀ a : List ℝ, 0 ≤ (a.map fun v => v * v).sum := fun a =>
    List.sum_nonneg fun x hx => by
      obtain ⟨v, _, rfl⟩ := List.mem_map.mp hx
      exact mul_self_nonneg v
  refine ⟨fun a ⟨x, hxa, hx⟩ => ?_, fun a b hlen horth => ?_, fun a b hlen hzero => ?_⟩
  · have hS : 0 < (a.map fun v => v * v).sum := by
      have hle := List.single_le_sum
        (fun y hy => by
          obtain ⟨v, _, rfl⟩ := List.mem_map.mp hy
          exact mul_self_nonneg v)
        (x * x) (sq_mem a x hxa)
      have : 0 < x * x := mul_self_pos.mpr hx
      linarith
    unfold cosineSimilarity
    rw [List.take_length, List.zipWith_same]
    rw [if_neg (by push_neg; exact ⟨ne_of_gt hS, ne_of_gt hS⟩)]
    rw [Real.mul_self_sqrt (le_of_lt hS)]
    exact div_self (ne_of_gt hS)
  · have hdot : ∀ (a b : List ℝ), (∀ i : ℕ, a.getD i 0 = 0 ∨ b.getD i 0 = 0) →
        (List.zipWith (fun x y => x * y) a b).sum = 0 := by
      intro a b h
      induction a generalizing b with
      | nil => simp
      | cons x xs ih =>
          cases b with
          | nil => simp
          | cons y ys =>
              rw [List.zipWith_cons_cons, List.sum_cons, ih ys fun i => h (i + 1)]
              rcases h 0 with h0 | h0 <;> simp_all
    unfold cosineSimilarity
    rw [hlen, List.take_length]
    by_cases hz : ((a.map fun v => v * v).sum = 0 ∨ (b.map fun v => v * v).sum = 0)
    · rw [if_pos hz]
    · rw [if_neg hz, hdot a b horth, zero_div]
  · unfold cosineSimilarity
    rw [hlen, List.take_length]
    rcases hzero with hz | hz
    · rw [if_pos (Or.inl (List.sum_eq_zero fun x hx => by
        obtain ⟨v, hv, rfl⟩ := List.mem_map.mp hx
        rw [hz v hv, mul_zero]))]
    · rw [if_pos (Or.inr (List.sum_eq_zero fun x hx => by
        obtain ⟨v, hv, rfl⟩ := List.mem_map.mp hx
        rw [hz v hv, mul_zero]))]

/-- Witness for C5 at concrete inputs. -/
theorem cosineSimilarity_spec_witness :
    cosineSimilarity [1] [1] = 1 ∧ cosineSimilarity [1, 0] [0, 2] = 0 ∧
      cosineSimilarity [0] [3] = 0 :=
  ⟨cosineSimilarity_spec.1 [1] ⟨1, by simp, one_ne_zero⟩,
   cosineSimilarity_spec.2.1 [1, 0] [0, 2] rfl (fun i =>
     match i with
     | 0 => Or.inr rfl
     | 1 => Or.inl rfl
     | _ + 2 => Or.inl rfl),
   cosineSimilarity_spec.2.2 [0] [3] rfl (Or.inl fun x hx => by simpa using hx)⟩

/-- `doNormalize` fails exactly on a normalization level outside
`{NoNorm, L1Norm, L2Norm}`, and then with `invalidConfig`. -/
theorem doNormalize_err_iff (lvl : ℤ) (vec : List ℝ) (e : TfIdfError) :
    doNormalize lvl vec = .error e ↔
      (e = .invalidConfig ∧ ¬(lvl = NoNorm ∨ lvl = L1Norm ∨ lvl = L2Norm)) := by
  unfold doNormalize NoNorm L1Norm L2Norm
  by_cases h1 : lvl = 1
  · simp [h1]
  · by_cases h2 : lvl = 2
    · simp [h1, h2]
    · by_cases h0 : lvl = 0
      · simp [h1, h2, h0]
      · simp [h1, h2, h0, eq_comm]

/-- The row loop can only fail with `invalidConfig`, and only for an
unrecognized normalization level. -/
theorem TfIdfLoop_err_iff (lvl : ℤ) (width : ℕ) (idfVec : List ℝ)
    (rows : List (List ℝ)) (e : TfIdfError) :
    TfIdfLoop lvl width idfVec rows = .err e →
      e = .invalidConfig ∧ ¬(lvl = NoNorm ∨ lvl = L1Norm ∨ lvl = L2Norm) := by
  induction rows with
  | nil => intro h; exact absurd h (by simp [TfIdfLoop])
  | cons row rest ih =>
      intro h
      unfold TfIdfLoop at h
      cases hrp : rowProducts width idfVec row with
      | none => rw [hrp] at h; dsimp only at h; exact absurd h (by simp)
      | some prods =>
          rw [hrp] at h
          dsimp only at h
          cases hdn : doNormalize lvl prods with
          | error e' =>
              rw [hdn] at h
              dsimp only at h
              simp only [TfIdfResult.err.injEq] at h
              obtain ⟨he, hlvl⟩ := (doNormalize_err_iff lvl prods e').mp hdn
              exact ⟨h ▸ he, hlvl⟩
          | ok nrow =>
              rw [hdn] at h
              dsimp only at h
              cases hrec : TfIdfLoop lvl width idfVec rest with
              | ok m => rw [hrec] at h; dsimp only at h; exact absurd h (by simp)
              | err e'' =>
                  rw [hrec] at h
                  dsimp only at h
                  simp only [TfIdfResult.err.injEq] at h
                  rw [h] at hrec
                  exact ih hrec
              | oob => rw [hrec] at h; dsimp only at h; exact absurd h (by simp)

/-- C6: `TfIdf` fails with `EmptyInput` exactly on a zero-row TF matrix;
given rows, it fails with `ShapeMismatch` exactly when the first row's
length differs from the IDF vector's; given rows and a matching first row,
it fails with `InvalidConfig` exactly when the configured normalization
level is not one of `NoNorm`, `L1Norm`, `L2Norm`.  In the model a failing
call is the bare error value, carrying no partial result matrix, exactly as
the Go function returns `(nil, err)`. -/
theorem TfIdf_error_spec (lvl : ℤ) (tfVec : List (List ℝ)) (idfVec : List ℝ) :
    (TfIdf lvl tfVec idfVec = .err .emptyInput ↔ tfVec.length = 0) ∧
    (tfVec.length ≠ 0 →
      (TfIdf lvl tfVec idfVec = .err .shapeMismatch ↔
        (tfVec.headD []).length ≠ idfVec.length)) ∧
    (tfVec.length ≠ 0 → (tfVec.headD []).length = idfVec.length →
      (TfIdf lvl tfVec idfVec = .err .invalidConfig ↔
        ¬(lvl = NoNorm ∨ lvl = L1Norm ∨ lvl = L2Norm))) := by
  refine ⟨?_, fun h0 => ?_, fun h0 hshape => ?_⟩
  · unfold TfIdf
    by_cases h0 : tfVec.length = 0
    · rw [if_pos h0]; exact iff_of_true rfl h0
    · rw [if_neg h0]
      simp only [h0, iff_false]
      by_cases hs : (tfVec.headD []).length ≠ idfVec.length
      · rw [if_pos hs]; simp
      · rw [if_neg hs]
        intro h
        exact absurd (TfIdfLoop_err_iff _ _ _ _ _ h).1 (by simp)
  · unfold TfIdf
    rw [if_neg h0]
    by_cases hs : (tfVec.headD []).length ≠ idfVec.length
    · rw [if_pos hs]; exact iff_of_true rfl hs
    · rw [if_neg hs]
      simp only [hs, iff_false]
      intro h
      exact absurd (TfIdfLoop_err_iff _ _ _ _ _ h).1 (by simp)
  · unfold TfIdf
    rw [if_neg h0, if_neg (not_not_intro hshape)]
    constructor
    · intro h
      exact (TfIdfLoop_err_iff _ _ _ _ _ h).2
    · intro hlvl
      obtain ⟨row0, rest, rfl⟩ := List.exists_cons_of_ne_nil
        (by simpa [← List.length_pos_iff_ne_nil] using Nat.pos_of_ne_zero h0)
      simp only [List.headD_cons] at hshape ⊢
      unfold TfIdfLoop
      rw [show rowProducts row0.length idfVec row0
            = some (List.zipWith (fun a b => a * b) (row0.take row0.length)
                (idfVec.take row0.length)) from
          if_pos ⟨le_refl _, hshape ▸ le_refl _⟩]
      dsimp only
      rw [(doNormalize_err_iff lvl _ TfIdfError.invalidConfig).mpr ⟨rfl, hlvl⟩]

/-- Witness for C6 at a concrete input. -/
theorem TfIdf_error_spec_witness :
    ([[(1 : ℝ)]] : List (List ℝ)).length ≠ 0 ∧
      (TfIdf 5 [[(1 : ℝ)]] [(1 : ℝ)] = .err .invalidConfig ↔
        ¬((5 : ℤ) = NoNorm ∨ (5 : ℤ) = L1Norm ∨ (5 : ℤ) = L2Norm)) :=
  ⟨by simp, (TfIdf_error_spec 5 [[(1 : ℝ)]] [(1 : ℝ)]).2.2 (by simp) rfl⟩

/-- For a recognized normalization level, `doNormalize` succeeds and
preserves the row's length. -/
theorem doNormalize_valid_ok (lvl : ℤ)
    (h : lvl = NoNorm ∨ lvl = L1Norm ∨ lvl = L2Norm) (vec : List ℝ) :
    ∃ nrow, doNormalize lvl vec = .ok nrow ∧ nrow.length = vec.length := by
  have l1len : (l1Normalize vec).length = vec.length := by
    unfold l1Normalize
    dsimp only
    split <;> simp
  have l2len : (l2Normalize vec).length = vec.length := by
    unfold l2Normalize
    dsimp only
    split <;> simp
  unfold doNormalize NoNorm L1Norm L2Norm at *
  rcases h with h | h | h <;> subst h <;> simp [l1len, l2len]

/-- The row loop succeeds on rectangular input whose rows all match the IDF
vector's length, producing a matrix of the same shape. -/
theorem TfIdfLoop_rect (lvl : ℤ)
    (hlvl : lvl = NoNorm ∨ lvl = L1Norm ∨ lvl = L2Norm) (idfVec : List ℝ) :
    ∀ rows : List (List ℝ), (∀ row ∈ rows, row.length = idfVec.length) →
      ∃ m, TfIdfLoop lvl idfVec.length idfVec rows = .ok m ∧
        m.length = rows.length ∧ ∀ r ∈ m, r.length = idfVec.length := by
  intro rows
  induction rows with
  | nil => exact fun _ => ⟨[], rfl, rfl, by simp⟩
  | cons row rest ih =>
      intro h
      have hrow : row.length = idfVec.length := h row (List.mem_cons_self row rest)
      have hrp : rowProducts idfVec.length idfVec row
          = some (List.zipWith (fun a b => a * b) (row.take idfVec.length)
              (idfVec.take idfVec.length)) :=
        if_pos ⟨hrow ▸ le_refl _, le_refl _⟩
      have hplen : (List.zipWith (fun a b => a * b) (row.take idfVec.length)
          (idfVec.take idfVec.length)).length = idfVec.length := by
        simp [List.length_zipWith, hrow]
      obtain ⟨nrow, hdn, hnlen⟩ := doNormalize_valid_ok lvl hlvl
        (List.zipWith (fun a b => a * b) (row.take idfVec.length)
          (idfVec.take idfVec.length))
      obtain ⟨m, hm, hmlen, hmrows⟩ := ih fun r hr => h r (List.mem_cons_of_mem row hr)
      refine ⟨nrow :: m, ?_, by simp [hmlen], ?_⟩
      · unfold TfIdfLoop
        rw [hrp]
        dsimp only
        rw [hdn]
        dsimp only
        rw [hm]
      · intro r hr
        rcases List.mem_cons.mp hr with rfl | hr
        · rw [hnlen, hplen]
        · exact hmrows r hr

/-- C10: `TfIdf` checks only the first row's length.  Any nonempty TF
matrix all of whose rows match the IDF vector's length is processed without
an out-of-bounds access into a matrix of identical shape; and a ragged
matrix whose first row matches the IDF length is not rejected with
`ShapeMismatch` — here it reaches the out-of-bounds panic instead, showing
rectangularity is an unchecked totality precondition. -/
theorem TfIdf_first_row_only (lvl : ℤ) (tfVec : List (List ℝ)) (idfVec : List ℝ) :
    ((lvl = NoNorm ∨ lvl = L1Norm ∨ lvl = L2Norm) → tfVec ≠ [] →
      (∀ row ∈ tfVec, row.length = idfVec.length) →
      ∃ m, TfIdf lvl tfVec idfVec = .ok m ∧ m.length = tfVec.length ∧
        ∀ r ∈ m, r.length = idfVec.length) ∧
    TfIdf L2Norm [[1, 2], [3]] [5, 6] = .oob := by
  constructor
  · intro hlvl hne hrect
    obtain ⟨row0, rest, rfl⟩ := List.exists_cons_of_ne_nil hne
    have hrow0 : row0.length = idfVec.length := hrect row0 (List.mem_cons_self row0 rest)
    unfold TfIdf
    rw [if_neg (by simp), List.headD_cons,
      if_neg (not_not_intro hrow0), hrow0]
    exact TfIdfLoop_rect lvl hlvl idfVec (row0 :: rest) hrect
  · unfold TfIdf
    rw [if_neg (by simp), List.headD_cons, if_neg (by simp)]
    unfold TfIdfLoop
    rw [show rowProducts ([(1 : ℝ), 2]).length [5, 6] [1, 2]
          = some (List.zipWith (fun a b => a * b) ([(1 : ℝ), 2].take 2) ([(5 : ℝ), 6].take 2))
        from if_pos (by simp)]
    dsimp only
    obtain ⟨nrow, hdn, -⟩ := doNormalize_valid_ok L2Norm (by simp [NoNorm, L1Norm, L2Norm])
      (List.zipWith (fun a b => a * b) ([(1 : ℝ), 2].take 2) ([(5 : ℝ), 6].take 2))
    rw [hdn]
    dsimp only
    unfold TfIdfLoop
    rw [show rowProducts ([(1 : ℝ), 2]).length [5, 6] [3] = none from
      if_neg (by simp)]

/-- Witness for C10 at a concrete input. -/
theorem TfIdf_first_row_only_witness :
    (L2Norm = NoNorm ∨ L2Norm = L1Norm ∨ L2Norm = L2Norm) ∧
      ([[(1 : ℝ)]] : List (List ℝ)) ≠ [] ∧
      (∀ row ∈ ([[(1 : ℝ)]] : List (List ℝ)), row.length = [(7 : ℝ)].length) ∧
      ∃ m, TfIdf L2Norm [[(1 : ℝ)]] [(7 : ℝ)] = .ok m ∧ m.length = 1 ∧
        ∀ r ∈ m, r.length = [(7 : ℝ)].length :=
  ⟨by simp [NoNorm, L1Norm, L2Norm], by simp, by simp,
    (TfIdf_first_row_only L2Norm [[(1 : ℝ)]] [(7 : ℝ)]).1
      (by simp [NoNorm, L1Norm, L2Norm]) (by simp) (by simp)⟩

/-- The character-level comparison agrees with the lexicographic strict
order: `leChars as bs` holds exactly when `bs` is not lexicographically
smaller than `as`. -/
theorem leChars_iff_not_lex (as : List Char) :
    ∀ bs : List Char, leChars as bs = true ↔ ¬ List.Lex (· < ·) bs as := by
  induction as with
  | nil =>
      intro bs
      unfold leChars
      refine iff_of_true (by cases bs <;> rfl) fun h => ?_
      cases h
  | cons a as ih =>
      intro bs
      cases bs with
      | nil =>
          unfold leChars
          exact iff_of_false (by simp) fun h => h (List.Lex.nil)
      | cons b bs =>
          unfold leChars
          rcases lt_trichotomy a b with hab | rfl | hba
          · rw [if_pos hab]
            refine iff_of_true rfl fun h => ?_
            cases h with
            | cons h' => exact lt_irrefl _ hab
            | rel h' => exact lt_asymm hab h'
          · rw [if_neg (lt_irrefl a), if_neg (lt_irrefl a)]
            rw [ih bs]
            constructor
            · intro h hlex
              cases hlex with
              | cons h' => exact h h'
              | rel h' => exact lt_irrefl _ h'
            · exact fun h hlex => h (List.Lex.cons hlex)
          · rw [if_neg (lt_asymm hba), if_pos hba]
            exact iff_of_false (by simp) fun h => h (List.Lex.rel hba)

/-- The Go string order used by `vocabulary` agrees with the
(code-point lexicographic) order `≤` on `String`. -/
theorem strLe_iff (s₁ s₂ : String) : strLe s₁ s₂ = true ↔ s₁ ≤ s₂ := by
  rw [String.le_iff_toList_le, strLe, leChars_iff_not_lex]
  exact @not_lt (List Char) _ s₂.toList s₁.toList

/-- Membership in the deduplication pass: exactly the listed tokens not
already seen. -/
theorem mem_uniqueTerms (s : String) (l : List String) :
    ∀ seen, s ∈ uniqueTerms l seen ↔ s ∈ l ∧ s ∉ seen := by
  induction l with
  | nil => intro seen; simp [uniqueTerms]
  | cons t rest ih =>
      intro seen
      unfold uniqueTerms
      by_cases h : seen.contains t
      · rw [if_pos h, ih seen]
        have ht : t ∈ seen := by simpa [List.contains] using h
        constructor
        · exact fun hs => ⟨List.mem_cons_of_mem t hs.1, hs.2⟩
        · rintro ⟨hs, hn⟩
          rcases List.mem_cons.mp hs with rfl | hs
          · exact absurd ht hn
          · exact ⟨hs, hn⟩
      · rw [if_neg h]
        constructor
        · intro hs
          rcases List.mem_cons.mp hs with rfl | hs
          · exact ⟨List.mem_cons_self _ _, by simpa [List.contains] using h⟩
          · rw [ih (t :: seen)] at hs
            exact ⟨List.mem_cons_of_mem t hs.1,
              fun hseen => hs.2 (List.mem_cons_of_mem t hseen)⟩
        · rintro ⟨hs, hn⟩
          by_cases hst : s = t
          · subst hst
            exact List.mem_cons_self _ _
          · rcases List.mem_cons.mp hs with rfl | hs
            · exact absurd rfl hst
            · refine List.mem_cons_of_mem t ((ih (t :: seen)).mpr ⟨hs, fun hmem => ?_⟩)
              rcases List.mem_cons.mp hmem with h' | h'
              · exact hst h'
              · exact hn h'

/-- The deduplication pass emits no duplicates. -/
theorem nodup_uniqueTerms (l : List String) :
    ∀ seen, (uniqueTerms l seen).Nodup := by
  induction l with
  | nil => intro seen; simp [uniqueTerms]
  | cons t rest ih =>
      intro seen
      unfold uniqueTerms
      by_cases h : seen.contains t
      · rw [if_pos h]; exact ih seen
      · rw [if_neg h]
        refine List.nodup_cons.mpr ⟨fun hmem => ?_, ih (t :: seen)⟩
        exact ((mem_uniqueTerms t rest (t :: seen)).mp hmem).2 (List.mem_cons_self _ _)

/-- Members of the vocabulary are exactly the tokens of the corpus. -/
theorem mem_vocabulary (tokens : List (List String)) (s : String) :
    s ∈ vocabulary tokens ↔ s ∈ tokens.flatten := by
  unfold vocabulary
  rw [(List.perm_insertionSort _ _).mem_iff, mem_uniqueTerms]
  simp

/-- C7: for every corpus, the vocabulary is duplicate-free and sorted in
ascending code-point order, and the ordering is deterministic: any two
token-sequence lists containing the same set of tokens — regardless of the
order of discovery — produce the same vocabulary. -/
theorem vocabulary_sorted_nodup_deterministic :
    (∀ tokens : List (List String),
      List.Sorted (· ≤ ·) (vocabulary tokens) ∧ (vocabulary tokens).Nodup) ∧
    (∀ tokens₁ tokens₂ : List (List String),
      (∀ s : String, s ∈ tokens₁.flatten ↔ s ∈ tokens₂.flatten) →
      vocabulary tokens₁ = vocabulary tokens₂) := by
  haveI htrans : IsTrans String (fun a b => strLe a b = true) :=
    ⟨fun a b c hab hbc =>
      (strLe_iff a c).mpr (le_trans ((strLe_iff a b).mp hab) ((strLe_iff b c).mp hbc))⟩
  haveI htotal : IsTotal String (fun a b => strLe a b = true) :=
    ⟨fun a b => by
      rcases le_total a b with h | h
      · exact Or.inl ((strLe_iff a b).mpr h)
      · exact Or.inr ((strLe_iff b a).mpr h)⟩
  have hsorted : ∀ tokens : List (List String),
      List.Sorted (· ≤ ·) (vocabulary tokens) := fun tokens =>
    List.Pairwise.imp (fun h => (strLe_iff _ _).mp h)
      (List.sorted_insertionSort _ (uniqueTerms tokens.flatten []))
  have hnodup : ∀ tokens : List (List String), (vocabulary tokens).Nodup := fun tokens =>
    (List.perm_insertionSort _ _).symm.nodup (nodup_uniqueTerms tokens.flatten [])
  refine ⟨fun tokens => ⟨hsorted tokens, hnodup tokens⟩, fun t₁ t₂ hmem => ?_⟩
  refine List.eq_of_perm_of_sorted ?_ (hsorted t₁) (hsorted t₂)
  refine (List.perm_ext_iff_of_nodup (hnodup t₁) (hnodup t₂)).mpr fun s => ?_
  rw [mem_vocabulary, mem_vocabulary]
  exact hmem s

/-- Witness for C7 at a concrete input. -/
theorem vocabulary_deterministic_witness :
    (∀ s : String, s ∈ ([["b", "a"], ["c"]] : List (List String)).flatten ↔
        s ∈ ([["c", "b"], ["a", "c"]] : List (List String)).flatten) ∧
      vocabulary [["b", "a"], ["c"]] = vocabulary [["c", "b"], ["a", "c"]] :=
  ⟨fun s => by simp [List.flatten]; tauto,
   vocabulary_sorted_nodup_deterministic.2 [["b", "a"], ["c"]] [["c", "b"], ["a", "c"]]
     fun s => by simp [List.flatten]; tauto⟩

/-- C2: the scanning tokenizer measures a letter run by its UTF-8 byte
length (`i - start` over byte offsets), not by code points.  On the
document `"é"` — a single letter, one code point, two UTF-8 bytes — the run
passes the `> 1` test and `"é"` is emitted as a token, although it is a
single-character letter run (no normalization function configured, so this
is the raw emitted token). -/
theorem tokenize_emits_one_codepoint_run :
    Tokenizer.tokenize unicodeIsLetter none "é" = ["é"] ∧ "é".toList.length = 1 := by
  decide

/-- `l2Normalize` on the concrete row pattern `[c, 0, 0, c]`. -/
theorem l2Normalize_c00c (c : ℝ) (hc : 0 < c) :
    l2Normalize [c, 0, 0, c]
      = [c / Real.sqrt (2 * (c * c)), 0, 0, c / Real.sqrt (2 * (c * c))] := by
  unfold l2Normalize
  dsimp only
  have hsum : (([c, 0, 0, c] : List ℝ).map fun val => val * val).sum = 2 * (c * c) := by
    simp
    ring
  rw [hsum]
  have hpos : 0 < Real.sqrt (2 * (c * c)) := Real.sqrt_pos.mpr (by positivity)
  rw [if_neg (ne_of_gt hpos)]
  simp [zero_div]

/-- `l2Normalize` on the concrete row pattern `[c, c, 0, 0]`. -/
theorem l2Normalize_cc00 (c : ℝ) (hc : 0 < c) :
    l2Normalize [c, c, 0, 0]
      = [c / Real.sqrt (2 * (c * c)), c / Real.sqrt (2 * (c * c)), 0, 0] := by
  unfold l2Normalize
  dsimp only
  have hsum : (([c, c, 0, 0] : List ℝ).map fun val => val * val).sum = 2 * (c * c) := by
    simp
    ring
  rw [hsum]
  have hpos : 0 < Real.sqrt (2 * (c * c)) := Real.sqrt_pos.mpr (by positivity)
  rw [if_neg (ne_of_gt hpos)]
  simp [zero_div]

/-- `l2Normalize` on the concrete row pattern `[0, c, c, 0]`. -/
theorem l2Normalize_0cc0 (c : ℝ) (hc : 0 < c) :
    l2Normalize [0, c, c, 0]
      = [0, c / Real.sqrt (2 * (c * c)), c / Real.sqrt (2 * (c * c)), 0] := by
  unfold l2Normalize
  dsimp only
  have hsum : (([0, c, c, 0] : List ℝ).map fun val => val * val).sum = 2 * (c * c) := by
    simp
    ring
  rw [hsum]
  have hpos : 0 < Real.sqrt (2 * (c * c)) := Real.sqrt_pos.mpr (by positivity)
  rw [if_neg (ne_of_gt hpos)]
  simp [zero_div]

/-- `doNormalize` at the default `L2Norm` level applies `l2Normalize`. -/
theorem doNormalize_L2 (vec : List ℝ) : doNormalize L2Norm vec = .ok (l2Normalize vec) := by
  unfold doNormalize L2Norm L1Norm
  norm_num

/-- `Tf` on the corpus of the end-to-end scenario. -/
theorem Tf_corpus_eval :
    Tf ["apple", "banana", "grape", "orange"] [["apple", "orange"], ["banana", "grape"]]
      = [[1, 0, 0, 1], [0, 1, 1, 0]] := by
  rw [Tf_eq_counts]
  simp only [List.map_cons, List.map_nil]
  rw [show (["apple", "orange"] : List String).count "apple" = 1 from by decide,
    show (["apple", "orange"] : List String).count "banana" = 0 from by decide,
    show (["apple", "orange"] : List String).count "grape" = 0 from by decide,
    show (["apple", "orange"] : List String).count "orange" = 1 from by decide,
    show (["banana", "grape"] : List String).count "apple" = 0 from by decide,
    show (["banana", "grape"] : List String).count "banana" = 1 from by decide,
    show (["banana", "grape"] : List String).count "grape" = 1 from by decide,
    show (["banana", "grape"] : List String).count "orange" = 0 from by decide]
  norm_num

/-- `Idf` (with smoothing) on the corpus of the end-to-end scenario: every
term occurs in exactly one of the two documents, so every weight is
`ln(3/2) + 1`. -/
theorem Idf_corpus_eval :
    Idf ["apple", "banana", "grape", "orange"] [["apple", "orange"], ["banana", "grape"]] true
      = [Real.log (3 / 2) + 1, Real.log (3 / 2) + 1, Real.log (3 / 2) + 1,
         Real.log (3 / 2) + 1] := by
  unfold Idf
  rw [if_neg (by simp)]
  simp only [List.map_cons, List.map_nil]
  rw [show ([["apple", "orange"], ["banana", "grape"]].countP
        fun doc => doc.contains "apple") = 1 from by decide,
    show ([["apple", "orange"], ["banana", "grape"]].countP
        fun doc => doc.contains "banana") = 1 from by decide,
    show ([["apple", "orange"], ["banana", "grape"]].countP
        fun doc => doc.contains "grape") = 1 from by decide,
    show ([["apple", "orange"], ["banana", "grape"]].countP
        fun doc => doc.contains "orange") = 1 from by decide]
  norm_num

/-- The vectorizer on the corpus TF matrix of the end-to-end scenario. -/
theorem TfIdf_corpus_eval (c : ℝ) (hc : 0 < c) :
    TfIdf L2Norm [[1, 0, 0, 1], [0, 1, 1, 0]] [c, c, c, c]
      = .ok [[c / Real.sqrt (2 * (c * c)), 0, 0, c / Real.sqrt (2 * (c * c))],
             [0, c / Real.sqrt (2 * (c * c)), c / Real.sqrt (2 * (c * c)), 0]] := by
  unfold TfIdf
  rw [if_neg (by simp), if_neg (by simp)]
  unfold TfIdfLoop
  rw [show rowProducts (([[1, 0, 0, 1], [0, 1, 1, 0]] : List (List ℝ)).headD []).length
        [c, c, c, c] [1, 0, 0, 1] = some [1 * c, 0 * c, 0 * c, 1 * c] from by
      unfold rowProducts
      rw [if_pos (by simp)]
      simp [List.take, List.zipWith]]
  dsimp only
  rw [show ([1 * c, 0 * c, 0 * c, 1 * c] : List ℝ) = [c, 0, 0, c] from by norm_num]
  rw [doNormalize_L2, l2Normalize_c00c c hc]
  dsimp only
  unfold TfIdfLoop
  rw [show rowProducts (([[1, 0, 0, 1], [0, 1, 1, 0]] : List (List ℝ)).headD []).length
        [c, c, c, c] [0, 1, 1, 0] = some [0 * c, 1 * c, 1 * c, 0 * c] from by
      unfold rowProducts
      rw [if_pos (by simp)]
      simp [List.take, List.zipWith]]
  dsimp only
  rw [show ([0 * c, 1 * c, 1 * c, 0 * c] : List ℝ) = [0, c, c, 0] from by norm_num]
  rw [doNormalize_L2, l2Normalize_0cc0 c hc]
  dsimp only
  unfold TfIdfLoop
  dsimp only

/-- `Tf` on the query of the end-to-end scenario, against the corpus
vocabulary. -/
theorem Tf_query_eval :
    Tf ["apple", "banana", "grape", "orange"] [["apple", "banana"]] = [[1, 1, 0, 0]] := by
  rw [Tf_eq_counts]
  simp only [List.map_cons, List.map_nil]
  rw [show (["apple", "banana"] : List String).count "apple" = 1 from by decide,
    show (["apple", "banana"] : List String).count "banana" = 1 from by decide,
    show (["apple", "banana"] : List String).count "grape" = 0 from by decide,
    show (["apple", "banana"] : List String).count "orange" = 0 from by decide]
  norm_num

/-- The vectorizer on the query TF matrix of the end-to-end scenario. -/
theorem TfIdf_query_eval (c : ℝ) (hc : 0 < c) :
    TfIdf L2Norm [[1, 1, 0, 0]] [c, c, c, c]
      = .ok [[c / Real.sqrt (2 * (c * c)), c / Real.sqrt (2 * (c * c)), 0, 0]] := by
  unfold TfIdf
  rw [if_neg (by simp), if_neg (by simp)]
  unfold TfIdfLoop
  rw [show rowProducts (([[1, 1, 0, 0]] : List (List ℝ)).headD []).length [c, c, c, c]
        [1, 1, 0, 0] = some [1 * c, 1 * c, 0 * c, 0 * c] from by
      unfold rowProducts
      rw [if_pos (by simp)]
      simp [List.take, List.zipWith]]
  dsimp only
  rw [show ([1 * c, 1 * c, 0 * c, 0 * c] : List ℝ) = [c, c, 0, 0] from by norm_num]
  rw [doNormalize_L2, l2Normalize_cc00 c hc]
  dsimp only
  unfold TfIdfLoop
  dsimp only

/-- Cosine similarity of the normalized query against the first document
vector of the end-to-end scenario. -/
theorem cosine_half_1 (a : ℝ) (ha : a ≠ 0) :
    cosineSimilarity [a, a, 0, 0] [a, 0, 0, a] = 1 / 2 := by
  unfold cosineSimilarity
  dsimp only
  have happos : 0 < a * a := mul_self_pos.mpr ha
  norm_num
  rw [if_neg ha]
  rw [Real.mul_self_sqrt (by linarith)]
  rw [div_eq_iff (by linarith : (0 : ℝ) < a * a + a * a).ne']
  ring

/-- Cosine similarity of the normalized query against the second document
vector of the end-to-end scenario. -/
theorem cosine_half_2 (a : ℝ) (ha : a ≠ 0) :
    cosineSimilarity [a, a, 0, 0] [0, a, a, 0] = 1 / 2 := by
  unfold cosineSimilarity
  dsimp only
  have happos : 0 < a * a := mul_self_pos.mpr ha
  norm_num
  rw [if_neg ha]
  rw [Real.mul_self_sqrt (by linarith)]
  rw [div_eq_iff (by linarith : (0 : ℝ) < a * a + a * a).ne']
  ring

/-- C1: with the scanning tokenizer under lowercasing normalization and the
default (L2-normalizing) vectorizer, `Do("apple banana",
["apple orange", "banana grape"])` succeeds and returns exactly the scores
`[1/2, 1/2]`, in document order, in exact real arithmetic. -/
theorem Do_apple_banana :
    Do unicodeIsLetter (some toLowerGo) L2Norm "apple banana" ["apple orange", "banana grape"]
      = .ok [1 / 2, 1 / 2] := by
  have hlog : 0 < Real.log (3 / 2) + 1 := by
    have := Real.log_pos (by norm_num : (1 : ℝ) < 3 / 2)
    linarith
  have hsq : 0 < Real.sqrt (2 * ((Real.log (3 / 2) + 1) * (Real.log (3 / 2) + 1))) :=
    Real.sqrt_pos.mpr (by positivity)
  have ha : (Real.log (3 / 2) + 1)
      / Real.sqrt (2 * ((Real.log (3 / 2) + 1) * (Real.log (3 / 2) + 1))) ≠ 0 :=
    (div_pos hlog hsq).ne'
  unfold Do
  rw [show Tokenize unicodeIsLetter (some toLowerGo) ["apple orange", "banana grape"]
        = (["apple", "banana", "grape", "orange"],
           [["apple", "orange"], ["banana", "grape"]]) from by decide]
  dsimp only
  rw [Tf_corpus_eval, Idf_corpus_eval, TfIdf_corpus_eval _ hlog]
  dsimp only
  rw [show Tokenize unicodeIsLetter (some toLowerGo) ["apple banana"]
        = (["apple", "banana"], [["apple", "banana"]]) from by decide]
  dsimp only
  rw [Tf_query_eval, TfIdf_query_eval _ hlog]
  dsimp only
  rw [List.map_cons, List.map_cons, List.map_nil]
  rw [show (([[(Real.log (3 / 2) + 1)
          / Real.sqrt (2 * ((Real.log (3 / 2) + 1) * (Real.log (3 / 2) + 1))),
        (Real.log (3 / 2) + 1)
          / Real.sqrt (2 * ((Real.log (3 / 2) + 1) * (Real.log (3 / 2) + 1))), 0,
        0]] : List (List ℝ)).headD [])
      = [(Real.log (3 / 2) + 1)
          / Real.sqrt (2 * ((Real.log (3 / 2) + 1) * (Real.log (3 / 2) + 1))),
        (Real.log (3 / 2) + 1)
          / Real.sqrt (2 * ((Real.log (3 / 2) + 1) * (Real.log (3 / 2) + 1))), 0,
        0] from rfl]
  rw [cosine_half_1 _ ha, cosine_half_2 _ ha]

end TfidfGo
